import Mathlib

/-! Verification of the tembo page-creation engine.

Shallow embedding of `src/tembo/journal/pages.py` (classes `PageCreator`,
`ScopedPageCreator`, `ScopedPage`), `src/tembo/exceptions.py` and
`src/tembo/utils/__init__.py`.

Modelling conventions:
* Python strings are modelled as `List Char` (Python compares strings by code
  points; `Char` comparison is by code point, so the orders agree).
* `pathlib` path values are modelled by their string form.  `Path(a) / b` and
  `Path(a, b, c)` are modelled as string joins with a single `'/'` separator;
  pathlib's normalisation of duplicate separators / empty components and the
  "absolute right operand wins" rule are not modelled (no claim depends on
  them, and no exercised input triggers them).
* `Path.expanduser` is modelled for the forms the code can produce: a leading
  component exactly `~` expands to the `home` string of the environment;
  `~user` forms are left unchanged (as CPython does for an unknown user).
* `Path.with_suffix` is modelled after CPython (3.8-3.12): the argument is
  rejected with `ValueError` when it contains the separator, when it is
  non-empty and does not start with `'.'`, or when it equals `"."`; the last
  dot-separated portion of the final path component is dropped (only when the
  last dot is neither the first nor the last character of the name) and the
  new suffix appended.  Python `IndexError` (from `extension[0]` on an empty
  extension) and `ValueError` are modelled as error values.
* The filesystem, the template loader+renderer (jinja) and the clock
  (`pendulum.now().strftime`) are external effects; they are modelled as an
  explicit environment `Env`: a predicate for path existence, a partial map
  from (template directory, template filename) to rendered template text, and
  an arbitrary strftime function.
* Writing a file "as UTF-8 text" is modelled as storing the content string in
  the disk map; byte-level encoding is not modelled.
-/

namespace Tembo

/-- Python `str.replace` scanner, fuel-indexed so that it is structural
recursion (the fuel is always at least the length of the subject string). -/
def pyReplaceAux (pat rep : List Char) : Nat → List Char → List Char
  | _, [] => []
  | 0, s => s
  | fuel + 1, c :: rest =>
    if pat.isPrefixOf (c :: rest) then
      rep ++ pyReplaceAux pat rep fuel ((c :: rest).drop pat.length)
    else
      c :: pyReplaceAux pat rep fuel rest

/-- Python `s.replace(pat, rep)`: replace every non-overlapping occurrence of
`pat` in `s` left to right.  All call sites in the source pass a non-empty
pattern, so the empty-pattern case (Python interleaves `rep`) is left as the
identity. -/
def pyReplace (s pat rep : List Char) : List Char :=
  match pat with
  | [] => s
  | _ :: _ => pyReplaceAux pat rep s.length s

/-- Longest digit run at the front of a string (the `\d*` part of the
`{input\d*}` regex). -/
def takeDigits : List Char → List Char
  | [] => []
  | c :: cs => if c.isDigit then c :: takeDigits cs else []

/-- Remainder after the longest front digit run. -/
def dropDigits : List Char → List Char
  | [] => []
  | c :: cs => if c.isDigit then dropDigits cs else c :: cs

/-- The literal characters of `{input`. -/
def inputTokenHead : List Char := ['{', 'i', 'n', 'p', 'u', 't']

/-- Try to match the regex `\{input\d*\}` at the start of the string; on
success return the matched token and the rest of the string. -/
def tryInputToken (s : List Char) : Option (List Char × List Char) :=
  if inputTokenHead.isPrefixOf s then
    match dropDigits (s.drop 6) with
    | '}' :: r => some (inputTokenHead ++ (takeDigits (s.drop 6) ++ ['}']), r)
    | _ => none
  else none

/-- The literal characters of `{name}`. -/
def nameTokenStr : List Char := ['{', 'n', 'a', 'm', 'e', '}']

/-- Try to match the regex `\{name\}` at the start of the string. -/
def tryNameToken (s : List Char) : Option (List Char × List Char) :=
  if nameTokenStr.isPrefixOf s then some (nameTokenStr, s.drop 6) else none

/-- Longest run of non-`'}'` characters at the front (the `[^}]*` part of the
date-token regex). -/
def takeNonBrace : List Char → List Char
  | [] => []
  | c :: cs => if c = '}' then [] else c :: takeNonBrace cs

/-- Remainder after the longest front run of non-`'}'` characters. -/
def dropNonBrace : List Char → List Char
  | [] => []
  | c :: cs => if c = '}' then c :: cs else dropNonBrace cs

/-- The literal characters of `{d:`. -/
def dateTokenHead : List Char := ['{', 'd', ':']

/-- Try to match the regex `\{d\:[^}]*\}` at the start of the string. -/
def tryDateToken (s : List Char) : Option (List Char × List Char) :=
  if dateTokenHead.isPrefixOf s then
    match dropNonBrace (s.drop 3) with
    | '}' :: r => some (dateTokenHead ++ (takeNonBrace (s.drop 3) ++ ['}']), r)
    | _ => none
  else none

/-- The `re.findall` scanner: at each position try to match a token; on a match
emit it and resume after it, otherwise advance one character.  Fuel-indexed
(fuel is at least the length of the string at every call). -/
def scanAux (tm : List Char → Option (List Char × List Char)) :
    Nat → List Char → List (List Char)
  | _, [] => []
  | 0, _ => []
  | fuel + 1, c :: rest =>
    match tm (c :: rest) with
    | some (tok, rem) => tok :: scanAux tm fuel rem
    | none => scanAux tm fuel rest

/-- Model of `re.findall(r"(\{input\d*\})", s)`. -/
def findInputTokens (s : List Char) : List (List Char) :=
  scanAux tryInputToken s.length s

/-- Model of `re.findall(r"(\{name\})", s)`. -/
def findNameTokens (s : List Char) : List (List Char) :=
  scanAux tryNameToken s.length s

/-- Model of `re.findall(r"(\{d\:[^}]*\})", s)`. -/
def findDateTokens (s : List Char) : List (List Char) :=
  scanAux tryDateToken s.length s

/-- Python string `<=` (lexicographic by code point). -/
def lexLe : List Char → List Char → Bool
  | [], _ => true
  | _ :: _, [] => false
  | a :: as, b :: bs => if a < b then true else if b < a then false else lexLe as bs

/-- Ordered insert for `lexLe` (used to model Python `sorted`). -/
def insertLex (x : List Char) : List (List Char) → List (List Char)
  | [] => [x]
  | y :: ys => if lexLe x y then x :: y :: ys else y :: insertLex x ys

/-- Insertion sort by `lexLe`.  On a duplicate-free list this yields exactly
the list Python's `sorted` returns (the unique `lexLe`-sorted permutation). -/
def sortLex : List (List Char) → List (List Char)
  | [] => []
  | x :: xs => insertLex x (sortLex xs)

/-- Duplicate removal (models Python `list(set(...))` up to order, which the
subsequent sort canonicalises). -/
def dedupStr : List (List Char) → List (List Char)
  | [] => []
  | x :: xs => if x ∈ xs then dedupStr xs else x :: dedupStr xs

/-- Model of `sorted(list(set(xs)))` of `ScopedPageCreator._get_input_tokens`. -/
def sortedDedup (xs : List (List Char)) : List (List Char) :=
  sortLex (dedupStr xs)

/-- The token-collection core of `ScopedPageCreator._get_input_tokens`: all
`{input\d*}` matches of the path and the template contents, duplicate-free
and sorted as plain strings. -/
def collect_input_tokens (path tmpl : List Char) : List (List Char) :=
  sortedDedup (findInputTokens path ++ findInputTokens tmpl)

/-- The spec-side characterisation of an input token: the literal `{input`,
zero or more digits, then `}`. -/
def IsInputToken (t : List Char) : Prop :=
  ∃ ds : List Char, (∀ c ∈ ds, c.isDigit = true) ∧ t = inputTokenHead ++ ds ++ ['}']

/-- Error taxonomy: the exceptions of `src/tembo/exceptions.py` that the
page-creation engine can raise, plus the two uncaught Python exceptions
reachable from `PageCreator._convert_base_path_to_path` /
`Path.with_suffix` (`IndexError` from `extension[0]` on an empty extension,
`ValueError` from an invalid `with_suffix` argument). -/
inductive Err where
  | basePathDoesNotExist (msg : List Char)
  | mismatchedToken (expected given : Nat)
  | templateFileNotFound (msg : List Char)
  | scopedPageAlreadyExists (msg : List Char)
  | indexError
  | valueError (payload : List Char)
deriving DecidableEq

/-- Result of a Python call: normal return or raised exception. -/
inductive Res (α : Type) where
  | ok (val : α)
  | error (err : Err)
deriving DecidableEq

/-- Model of `tembo.journal.pages.PageCreatorOptions`. -/
structure PageCreatorOptions where
  base_path : List Char
  page_path : List Char
  filename : List Char
  extension : List Char
  name : List Char
  user_input : Option (List (List Char))
  user_example : Option (List Char)
  template_path : Option (List Char)
  template_filename : Option (List Char)
deriving DecidableEq

/-- External effects: home directory (for `~` expansion), filesystem
existence, the jinja template loader+renderer (directory, filename →
rendered text, `none` = `TemplateNotFound`), and the clock+`strftime`. -/
structure Env where
  home : List Char
  pathExists : List Char → Bool
  template : List Char → List Char → Option (List Char)
  strftime : List Char → List Char

/-- Model of `tembo.journal.pages.ScopedPage` (path and page content). -/
structure ScopedPage where
  path : List Char
  page_content : List Char
deriving DecidableEq

/-- Model of `tembo.utils.Success`. -/
structure Success where
  message : List Char
deriving DecidableEq

/-- Model of `pathlib.Path.expanduser` for the modelled forms: a first component
exactly `~` is replaced by the home directory; anything else (including
`~user` forms) is unchanged. -/
def expanduser (home : List Char) (s : List Char) : List Char :=
  match s with
  | [] => []
  | c :: cs =>
    if c = '~' then
      match cs with
      | [] => home
      | d :: ds => if d = '/' then home ++ (d :: ds) else c :: cs
    else c :: cs

/-- Reversed final path component: `takeWhile (· ≠ '/')` on a reversed path. -/
def revTakeToSlash : List Char → List Char
  | [] => []
  | c :: cs => if c = '/' then [] else c :: revTakeToSlash cs

/-- Reversed directory part (including the trailing slash). -/
def revDropToSlash : List Char → List Char
  | [] => []
  | c :: cs => if c = '/' then c :: cs else revDropToSlash cs

/-- Model of `PurePath.name`: the part of the path after the last `'/'`. -/
def nameOf (p : List Char) : List Char := (revTakeToSlash p.reverse).reverse

/-- The path up to and including the last `'/'` (empty if no `'/'`). -/
def dirPart (p : List Char) : List Char := (revDropToSlash p.reverse).reverse

/-- Reversed characters after the last `'.'`: `takeWhile (· ≠ '.')` on a
reversed name. -/
def revTakeToDot : List Char → List Char
  | [] => []
  | c :: cs => if c = '.' then [] else c :: revTakeToDot cs

/-- The name with its `PurePath.suffix` removed: CPython treats the text from
the last `'.'` on as the suffix only when that dot is neither the first nor
the last character of the name. -/
def stemOf (nm : List Char) : List Char :=
  if (revTakeToDot nm.reverse).length = nm.length then nm
  else if 0 < nm.length - 1 - (revTakeToDot nm.reverse).length ∧
      0 < (revTakeToDot nm.reverse).length then
    nm.take (nm.length - 1 - (revTakeToDot nm.reverse).length)
  else nm

/-- Model of `pathlib.PurePath.with_suffix`, CPython semantics (see module comment). -/
def with_suffix (p suf : List Char) : Res (List Char) :=
  if '/' ∈ suf then Res.error (Err.valueError suf)
  else
    match suf with
    | [] =>
      if nameOf p = [] then Res.error (Err.valueError p)
      else Res.ok (dirPart p ++ stemOf (nameOf p))
    | c :: rest =>
      if c = '.' then
        if rest = [] then Res.error (Err.valueError suf)
        else if nameOf p = [] then Res.error (Err.valueError p)
        else Res.ok (dirPart p ++ stemOf (nameOf p) ++ (c :: rest))
      else Res.error (Err.valueError suf)

/-- The literal characters of `Tembo base path of `. -/
def strTemboBasePathOf : List Char :=
  ['T', 'e', 'm', 'b', 'o', ' ', 'b', 'a', 's', 'e', ' ', 'p', 'a', 't', 'h',
   ' ', 'o', 'f', ' ']

/-- The literal characters of ` does not exist.`. -/
def strDoesNotExist : List Char :=
  [' ', 'd', 'o', 'e', 's', ' ', 'n', 'o', 't', ' ', 'e', 'x', 'i', 's', 't', '.']

/-- The literal characters of `Template file `. -/
def strTemplateFile : List Char :=
  ['T', 'e', 'm', 'p', 'l', 'a', 't', 'e', ' ', 'f', 'i', 'l', 'e', ' ']

/-- The literal characters of ` already exists`. -/
def strAlreadyExists : List Char :=
  [' ', 'a', 'l', 'r', 'e', 'a', 'd', 'y', ' ', 'e', 'x', 'i', 's', 't', 's']

/-- The literal characters of `.templates`. -/
def dotTemplates : List Char :=
  ['.', 't', 'e', 'm', 'p', 'l', 'a', 't', 'e', 's']

/-- Message of `BasePathDoesNotExistError` as raised by
`PageCreator._check_base_path_exists`. -/
def base_path_error_msg (bp : List Char) : List Char :=
  strTemboBasePathOf ++ bp ++ strDoesNotExist

/-- Message of `TemplateFileNotFoundError` as raised by
`PageCreator._load_template`. -/
def template_error_msg (dir fname : List Char) : List Char :=
  strTemplateFile ++ dir ++ ['/'] ++ fname ++ strDoesNotExist

/-- The resolved template directory of `PageCreator._load_template`:
`template_path` when configured, else `<base_path>/.templates` (both
home-expanded). -/
def template_dir (env : Env) (opts : PageCreatorOptions) : List Char :=
  match opts.template_path with
  | some tp => expanduser env.home tp
  | none => expanduser env.home opts.base_path ++ ['/'] ++ dotTemplates

/-- Model of `PageCreator._load_template`: empty string when no template is
configured; otherwise the rendered template, or `TemplateFileNotFoundError`
naming the resolved full path when the file is absent. -/
def load_template (env : Env) (opts : PageCreatorOptions) : Res (List Char) :=
  match opts.template_filename with
  | none => Res.ok []
  | some fname =>
    match env.template (template_dir env opts) fname with
    | some contents => Res.ok contents
    | none =>
      Res.error (Err.templateFileNotFound
        (template_error_msg (template_dir env opts) fname))

/-- Model of `ScopedPageCreator._get_input_tokens`: build the token-scan path
`Path(base_path, page_path, filename).expanduser().with_suffix("." + extension)`
(raw extension, no space replacement), load the template, and collect the
sorted duplicate-free input tokens from both strings. -/
def get_input_tokens (env : Env) (opts : PageCreatorOptions) :
    Res (List (List Char)) :=
  match with_suffix
      (expanduser env.home
        (opts.base_path ++ ['/'] ++ opts.page_path ++ ['/'] ++ opts.filename))
      ('.' :: opts.extension) with
  | Res.error e => Res.error e
  | Res.ok path =>
    match load_template env opts with
    | Res.error e => Res.error e
    | Res.ok tmpl => Res.ok (collect_input_tokens path tmpl)

/-- Model of `ScopedPageCreator._verify_input_tokens`. -/
def verify_input_tokens (toks : List (List Char))
    (ui : Option (List (List Char))) : Res Unit :=
  match ui with
  | none =>
    if 0 < toks.length then Res.error (Err.mismatchedToken toks.length 0)
    else Res.ok ()
  | some vals =>
    if toks.length ≠ vals.length then
      Res.error (Err.mismatchedToken toks.length vals.length)
    else Res.ok ()

/-- Model of `PageCreator._convert_base_path_to_path`: join the home-expanded base
path, the home-expanded space-replaced page path and the space-replaced
filename, then apply the normalised extension as suffix.  `extension[0]` on
an empty extension raises Python `IndexError`. -/
def convert_base_path_to_path (env : Env) (opts : PageCreatorOptions) :
    Res (List Char) :=
  match opts.extension with
  | [] => Res.error Err.indexError
  | c :: rest =>
    with_suffix
      (expanduser env.home opts.base_path ++ ['/'] ++
       expanduser env.home (pyReplace opts.page_path [' '] ['_']) ++ ['/'] ++
       pyReplace opts.filename [' '] ['_'])
      ('.' :: (if c = '.' then rest else c :: rest))

/-- Model of `ScopedPageCreator.__substitute_input_tokens`: zip the user input with
the collected tokens and replace each token everywhere by the input value
with spaces turned into underscores; no-op when `user_input` is absent. -/
def substitute_input_tokens (ui : Option (List (List Char)))
    (toks : List (List Char)) (s : List Char) : List Char :=
  match ui with
  | none => s
  | some vals =>
    (List.zip vals toks).foldl
      (fun acc pr => pyReplace acc pr.2 (pyReplace pr.1 [' '] ['_'])) s

/-- Model of `ScopedPageCreator.__substitute_name_tokens`: replace each found
`{name}` occurrence by the configured name, unmodified. -/
def substitute_name_tokens (nm : List Char) (s : List Char) : List Char :=
  (findNameTokens s).foldl (fun acc tok => pyReplace acc tok nm) s

/-- The `<format>` inside a `{d:<format>}` token, as extracted by the
`re.match(r"\{d\:([^\}]*)\}", token)` in the source. -/
def dateFormatOf (tok : List Char) : List Char := takeNonBrace (tok.drop 3)

/-- Model of `ScopedPageCreator.__substitute_date_tokens`: replace each found
`{d:<format>}` token by the current time formatted with `<format>`. -/
def substitute_date_tokens (fmt : List Char → List Char) (s : List Char) :
    List Char :=
  (findDateTokens s).foldl (fun acc tok => pyReplace acc tok (fmt (dateFormatOf tok))) s

/-- Model of `ScopedPageCreator._substitute_tokens`: input pass, then name pass, then
date pass. -/
def substitute_tokens (env : Env) (opts : PageCreatorOptions)
    (toks : List (List Char)) (s : List Char) : List Char :=
  substitute_date_tokens env.strftime
    (substitute_name_tokens opts.name
      (substitute_input_tokens opts.user_input toks s))

/-- Model of `ScopedPageCreator.create_page`: base-path check, token collection
(which loads the template and may surface its absence), token-count
verification, path construction and substitution, template load and (only
when a template is configured) content substitution. -/
def create_page (env : Env) (opts : PageCreatorOptions) : Res ScopedPage :=
  if env.pathExists (expanduser env.home opts.base_path) = false then
    Res.error (Err.basePathDoesNotExist (base_path_error_msg opts.base_path))
  else
    match get_input_tokens env opts with
    | Res.error e => Res.error e
    | Res.ok toks =>
      match verify_input_tokens toks opts.user_input with
      | Res.error e => Res.error e
      | Res.ok _ =>
        match convert_base_path_to_path env opts with
        | Res.error e => Res.error e
        | Res.ok rawPath =>
          match load_template env opts with
          | Res.error e => Res.error e
          | Res.ok tmpl =>
            Res.ok
              ⟨substitute_tokens env opts toks rawPath,
               if opts.template_filename.isSome then
                 substitute_tokens env opts toks tmpl
               else tmpl⟩

/-- Filesystem state for the persistence step: a set of directories that
exist and a map from file path to file content. -/
structure Disk where
  dirs : List (List Char)
  files : List (List Char × List Char)
deriving DecidableEq

/-- All proper ancestors of a path (every prefix ending just before a
`'/'`): what `path.parents[0].mkdir(parents=True, exist_ok=True)` creates. -/
def slashPrefixes (p : List Char) : List (List Char) :=
  (List.range p.length).filterMap
    (fun i => if p.get? i = some '/' then some (p.take i) else none)

/-- Association-list lookup of a file's content by path. -/
def lookupFile : List (List Char × List Char) → List Char → Option (List Char)
  | [], _ => none
  | (q, c) :: rest, p => if q = p then some c else lookupFile rest p

/-- Model of `ScopedPage.save_to_disk`: create the parent directories (this happens
before the existence check in the source), fail with
`ScopedPageAlreadyExists` naming the path when the file exists, otherwise
write the content to a new file and return a `Success` carrying the path. -/
def save_to_disk (page : ScopedPage) (disk : Disk) : Res Success × Disk :=
  match lookupFile disk.files page.path with
  | some _ =>
    (Res.error (Err.scopedPageAlreadyExists (page.path ++ strAlreadyExists)),
     ⟨slashPrefixes page.path ++ disk.dirs, disk.files⟩)
  | none =>
    (Res.ok ⟨page.path⟩,
     ⟨slashPrefixes page.path ++ disk.dirs,
      (page.path, page.page_content) :: disk.files⟩)

/-! ### Basic list helpers -/

/-- A list prefix is an infix. -/
theorem infixOfPre {t s : List Char} (h : t <+: s) : t <:+: s := by
  obtain ⟨r, hr⟩ := h
  exact ⟨[], r, by simpa using hr⟩

/-- An infix of the tail is an infix. -/
theorem infixOfTail {t l : List Char} (c : Char) (h : t <:+: l) : t <:+: c :: l := by
  obtain ⟨p, q, hpq⟩ := h
  exact ⟨c :: p, q, by simp [hpq]⟩

/-- An infix of the right part of an append is an infix of the append. -/
theorem infixAppendRight {t v : List Char} (u : List Char) (h : t <:+: v) :
    t <:+: u ++ v := by
  obtain ⟨p, q, hpq⟩ := h
  exact ⟨u ++ p, q, by simp [hpq]⟩

/-- An infix of `c :: l` either starts at the front or lies in `l`. -/
theorem infixConsSplit {t : List Char} {c : Char} {l : List Char}
    (h : t <:+: c :: l) : t <+: c :: l ∨ t <:+: l := by
  obtain ⟨p, q, hpq⟩ := h
  cases p with
  | nil =>
    rw [List.nil_append] at hpq
    exact Or.inl ⟨q, hpq⟩
  | cons a p' =>
    simp only [List.cons_append, List.cons.injEq] at hpq
    exact Or.inr ⟨p', q, hpq.2⟩

/-- The only infix of the empty list is the empty list. -/
theorem infixNilEq {t : List Char} (h : t <:+: ([] : List Char)) : t = [] := by
  obtain ⟨p, q, hpq⟩ := h
  have := List.append_eq_nil.mp hpq
  exact (List.append_eq_nil.mp this.1).2

/-- An infix starting with a character absent from `u` lies in `v`. -/
theorem headNotMemInfix {x : Char} {t' v : List Char} :
    ∀ {u : List Char}, (x :: t') <:+: u ++ v → x ∉ u → (x :: t') <:+: v := by
  intro u
  induction u with
  | nil =>
    intro h _
    rw [List.nil_append] at h
    exact h
  | cons a u' ih =>
    intro h hx
    rcases infixConsSplit (by simpa using h) with hpre | hinf
    · obtain ⟨r, hr⟩ := hpre
      simp only [List.cons_append, List.cons.injEq] at hr
      exact absurd (hr.1 ▸ List.mem_cons_self a u') hx
    · exact ih hinf (fun hmem => hx (List.mem_cons_of_mem a hmem))

/-- Boolean `isPrefixOf` agrees with the prefix relation. -/
theorem startsWith_iff : ∀ (p s : List Char), p.isPrefixOf s = true ↔ p <+: s := by
  intro p
  induction p with
  | nil => intro s; simp [List.isPrefixOf, List.nil_prefix]
  | cons a as ih =>
    intro s
    cases s with
    | nil => simp [List.isPrefixOf]
    | cons b bs =>
      simp only [List.isPrefixOf, Bool.and_eq_true, beq_iff_eq, ih bs,
        List.cons_prefix_cons]

/-- A list is a Boolean prefix of itself followed by anything. -/
theorem startsWith_append (p x : List Char) : p.isPrefixOf (p ++ x) = true :=
  (startsWith_iff p (p ++ x)).mpr ⟨x, rfl⟩

/-! ### takeDigits / dropDigits -/

/-- Members of `takeDigits` are digits. -/
theorem mem_takeDigits {c : Char} : ∀ {l : List Char}, c ∈ takeDigits l → c.isDigit = true := by
  intro l
  induction l with
  | nil => intro h; simp [takeDigits] at h
  | cons a as ih =>
    intro h
    by_cases ha : a.isDigit
    · simp only [takeDigits, if_pos ha] at h
      rcases List.mem_cons.mp h with rfl | h'
      · exact ha
      · exact ih h'
    · simp [takeDigits, ha] at h

/-- The functions `takeDigits` and `dropDigits` split the list. -/
theorem takeDigits_dropDigits : ∀ (l : List Char), takeDigits l ++ dropDigits l = l := by
  intro l
  induction l with
  | nil => rfl
  | cons a as ih =>
    by_cases ha : a.isDigit
    · simp [takeDigits, dropDigits, ha, ih]
    · simp [takeDigits, dropDigits, ha]

/-- A digit run followed by a non-digit splits exactly there. -/
theorem takeDigits_append {ds : List Char} (h : ∀ c ∈ ds, c.isDigit = true)
    {x : Char} (hx : x.isDigit = false) (r : List Char) :
    takeDigits (ds ++ x :: r) = ds ∧ dropDigits (ds ++ x :: r) = x :: r := by
  induction ds with
  | nil => simp [takeDigits, dropDigits, hx]
  | cons d ds' ih =>
    have hd : d.isDigit = true := h d (List.mem_cons_self d ds')
    have ih' := ih (fun c hc => h c (List.mem_cons_of_mem d hc))
    simp [takeDigits, dropDigits, hd, ih'.1, ih'.2]

/-! ### Input-token matcher -/

/-- An input token is non-empty. -/
theorem inputToken_ne_nil {t : List Char} (ht : IsInputToken t) : t ≠ [] := by
  obtain ⟨ds, _, rfl⟩ := ht
  simp [inputTokenHead]

/-- An input token starts with `'{'`, and `'{'` does not recur in it. -/
theorem inputToken_shape {t : List Char} (ht : IsInputToken t) :
    ∃ t', t = '{' :: t' ∧ '{' ∉ t' := by
  obtain ⟨ds, hds, rfl⟩ := ht
  refine ⟨['i', 'n', 'p', 'u', 't'] ++ ds ++ ['}'], by simp [inputTokenHead], ?_⟩
  intro hmem
  simp only [List.mem_append, List.mem_cons, List.mem_singleton] at hmem
  rcases hmem with (h5 | hds') | h1
  · simp at h5
  · have := hds _ hds'
    simp at this
  · simp at h1

/-- Soundness of the input-token matcher: a match is an input token and a
decomposition of the subject. -/
theorem tryInputToken_sound {s tok rem : List Char}
    (h : tryInputToken s = some (tok, rem)) :
    IsInputToken tok ∧ s = tok ++ rem := by
  unfold tryInputToken at h
  split at h
  case isFalse => exact absurd h (by simp)
  case isTrue hp =>
    split at h
    case h_2 => exact absurd h (by simp)
    case h_1 r heq =>
      have hinj : inputTokenHead ++ (takeDigits (s.drop 6) ++ ['}']) = tok ∧ r = rem := by
        simpa using h
      obtain ⟨hk, hr⟩ := hinj
      subst hr
      obtain ⟨x, hx⟩ := (startsWith_iff _ _).mp hp
      have hdrop : s.drop 6 = x := by
        have hx6 : s.drop inputTokenHead.length = x := by
          rw [← hx]; exact List.drop_left _ _
        simpa [inputTokenHead] using hx6
      constructor
      · exact ⟨takeDigits (s.drop 6), fun c hc => mem_takeDigits hc, by
          rw [← hk]; simp [List.append_assoc]⟩
      · rw [← hk]
        have hs6 : inputTokenHead ++ s.drop 6 = s := by
          rw [hdrop]; exact hx
        calc s = inputTokenHead ++ s.drop 6 := hs6.symm
          _ = inputTokenHead ++ (takeDigits (s.drop 6) ++ dropDigits (s.drop 6)) := by
              rw [takeDigits_dropDigits]
          _ = inputTokenHead ++ (takeDigits (s.drop 6) ++ ['}']) ++ r := by
              rw [heq]; simp [List.append_assoc]

/-- Completeness of the input-token matcher: an input token at the front is
matched exactly. -/
theorem tryInputToken_complete {t : List Char} (ht : IsInputToken t)
    (r : List Char) : tryInputToken (t ++ r) = some (t, r) := by
  obtain ⟨ds, hds, rfl⟩ := ht
  have hshape : (inputTokenHead ++ ds ++ ['}']) ++ r
      = inputTokenHead ++ (ds ++ '}' :: r) := by simp [List.append_assoc]
  rw [hshape]
  unfold tryInputToken
  rw [if_pos (startsWith_append _ _)]
  have hdrop : (inputTokenHead ++ (ds ++ '}' :: r)).drop 6 = ds ++ '}' :: r := by
    have h6 : (inputTokenHead ++ (ds ++ '}' :: r)).drop inputTokenHead.length
        = ds ++ '}' :: r := List.drop_left _ _
    exact h6
  rw [hdrop]
  have hbr : ('}' : Char).isDigit = false := by decide
  obtain ⟨htk, hdr⟩ := takeDigits_append hds hbr r
  rw [hdr, htk]
  simp [List.append_assoc]

/-! ### Scanner characterisation for input tokens -/

/-- Membership in the fuelled `re.findall` scan for input tokens is exactly
"is an input token occurring as an infix". -/
theorem mem_scanInput : ∀ (fuel : Nat) (s : List Char), s.length ≤ fuel →
    ∀ t, t ∈ scanAux tryInputToken fuel s ↔ (IsInputToken t ∧ t <:+: s) := by
  intro fuel
  induction fuel with
  | zero =>
    intro s hs t
    cases s with
    | nil =>
      simp only [scanAux, List.not_mem_nil, false_iff, not_and]
      intro htok hinf
      exact inputToken_ne_nil htok (infixNilEq hinf)
    | cons c rest => simp at hs
  | succ fuel ih =>
    intro s hs t
    cases s with
    | nil =>
      simp only [scanAux, List.not_mem_nil, false_iff, not_and]
      intro htok hinf
      exact inputToken_ne_nil htok (infixNilEq hinf)
    | cons c rest =>
      cases htm : tryInputToken (c :: rest) with
      | none =>
        have hlen : rest.length ≤ fuel := by
          simp only [List.length_cons] at hs; omega
        simp only [scanAux, htm, ih rest hlen t]
        constructor
        · rintro ⟨htok, hinf⟩
          exact ⟨htok, infixOfTail c hinf⟩
        · rintro ⟨htok, hinf⟩
          refine ⟨htok, ?_⟩
          rcases infixConsSplit hinf with hpre | hinf'
          · obtain ⟨q, hq⟩ := hpre
            rw [← hq, tryInputToken_complete htok q] at htm
            exact absurd htm (by simp)
          · exact hinf'
      | some pr =>
        obtain ⟨tok, rem⟩ := pr
        obtain ⟨htok, heq⟩ := tryInputToken_sound htm
        obtain ⟨tok', htok', hnomem⟩ := inputToken_shape htok
        have hlen : rem.length ≤ fuel := by
          have : (c :: rest).length = tok.length + rem.length := by
            rw [heq, List.length_append]
          have htl : 1 ≤ tok.length := by
            rw [htok']; simp
          simp only [List.length_cons] at this hs
          omega
        simp only [scanAux, htm, List.mem_cons, ih rem hlen t]
        constructor
        · rintro (rfl | ⟨htokt, hinf⟩)
          · exact ⟨htok, infixOfPre ⟨rem, heq.symm⟩⟩
          · exact ⟨htokt, heq ▸ infixAppendRight tok hinf⟩
        · rintro ⟨htokt, hinf⟩
          rcases infixConsSplit hinf with hpre | hinf'
          · obtain ⟨q, hq⟩ := hpre
            rw [← hq, tryInputToken_complete htokt q] at htm
            have h1 : t = tok ∧ q = rem := by simpa using htm
            exact Or.inl h1.1
          · refine Or.inr ⟨htokt, ?_⟩
            have hrest : rest = tok' ++ rem := by
              rw [htok'] at heq
              have h2 : c = '{' ∧ rest = tok' ++ rem := by simpa using heq
              exact h2.2
            obtain ⟨t'', ht'', _⟩ := inputToken_shape htokt
            rw [hrest] at hinf'
            rw [ht''] at hinf' ⊢
            exact headNotMemInfix hinf' hnomem

/-- Model of `re.findall(r"(\{input\d*\})", s)` finds exactly the input tokens that
occur as substrings of `s`. -/
theorem mem_findInputTokens {s t : List Char} :
    t ∈ findInputTokens s ↔ (IsInputToken t ∧ t <:+: s) :=
  mem_scanInput s.length s (le_refl _) t

/-- An empty input-token scan means no input token occurs in the string. -/
theorem findInputTokens_eq_nil {s : List Char} (h : findInputTokens s = [])
    {t : List Char} (ht : IsInputToken t) : ¬ t <:+: s := by
  intro hinf
  have := mem_findInputTokens.mpr ⟨ht, hinf⟩
  rw [h] at this
  simp at this

/-! ### Sorting and duplicate removal -/

/-- The relation `lexLe` is total. -/
theorem lexLe_total : ∀ (a b : List Char), lexLe a b = true ∨ lexLe b a = true := by
  intro a
  induction a with
  | nil => intro b; exact Or.inl rfl
  | cons x xs ih =>
    intro b
    cases b with
    | nil => exact Or.inr rfl
    | cons y ys =>
      rcases lt_trichotomy x y with hlt | heq | hgt
      · exact Or.inl (by simp [lexLe, hlt])
      · subst heq
        rcases ih ys with h | h
        · exact Or.inl (by simp [lexLe, lt_irrefl, h])
        · exact Or.inr (by simp [lexLe, lt_irrefl, h])
      · exact Or.inr (by simp [lexLe, hgt])

/-- The relation `lexLe` is transitive. -/
theorem lexLe_trans : ∀ {a b c : List Char},
    lexLe a b = true → lexLe b c = true → lexLe a c = true := by
  intro a
  induction a with
  | nil => intro b c _ _; rfl
  | cons x xs ih =>
    intro b c h1 h2
    cases b with
    | nil => simp [lexLe] at h1
    | cons y ys =>
      cases c with
      | nil => simp [lexLe] at h2
      | cons z zs =>
        simp only [lexLe] at h1 h2 ⊢
        by_cases hxy : x < y
        · by_cases hyz : y < z
          · simp [lt_trans hxy hyz]
          · by_cases hzy : z < y
            · simp [hyz, hzy] at h2
            · have hyz' : y = z := le_antisymm (not_lt.mp hzy) (not_lt.mp hyz)
              subst hyz'
              simp [hxy]
        · by_cases hyx : y < x
          · simp [hxy, hyx] at h1
          · have hxy' : x = y := le_antisymm (not_lt.mp hyx) (not_lt.mp hxy)
            subst hxy'
            by_cases hyz : x < z
            · simp [hyz]
            · by_cases hzy : z < x
              · simp [hyz, hzy] at h2
              · have hxz : x = z := le_antisymm (not_lt.mp hzy) (not_lt.mp hyz)
                subst hxz
                simp only [lt_irrefl, if_false] at h1 h2 ⊢
                exact ih h1 h2

/-- The insertion `insertLex` is a permutation of consing. -/
theorem insertLex_perm (x : List Char) :
    ∀ (l : List (List Char)), List.Perm (insertLex x l) (x :: l) := by
  intro l
  induction l with
  | nil => exact List.Perm.refl _
  | cons y ys ih =>
    by_cases h : lexLe x y = true
    · simp [insertLex, h]
    · have hx : insertLex x (y :: ys) = y :: insertLex x ys := by
        simp [insertLex, h]
      rw [hx]
      exact (ih.cons y).trans (List.Perm.swap x y ys)

/-- The sort `sortLex` is a permutation. -/
theorem sortLex_perm : ∀ (l : List (List Char)), List.Perm (sortLex l) l := by
  intro l
  induction l with
  | nil => exact List.Perm.refl _
  | cons x xs ih =>
    exact (insertLex_perm x (sortLex xs)).trans (ih.cons x)

/-- Membership is preserved by `sortLex`. -/
theorem mem_sortLex {a : List Char} {l : List (List Char)} :
    a ∈ sortLex l ↔ a ∈ l :=
  (sortLex_perm l).mem_iff

/-- The insertion `insertLex` preserves sortedness. -/
theorem pairwise_insertLex {x : List Char} :
    ∀ {l : List (List Char)},
      l.Pairwise (fun a b => lexLe a b = true) →
      (insertLex x l).Pairwise (fun a b => lexLe a b = true) := by
  intro l
  induction l with
  | nil => intro _; simp [insertLex]
  | cons y ys ih =>
    intro hl
    rw [List.pairwise_cons] at hl
    obtain ⟨hy, hys⟩ := hl
    by_cases h : lexLe x y = true
    · simp only [insertLex, h, if_true]
      rw [List.pairwise_cons]
      refine ⟨?_, List.pairwise_cons.mpr ⟨hy, hys⟩⟩
      intro z hz
      rcases List.mem_cons.mp hz with rfl | hz'
      · exact h
      · exact lexLe_trans h (hy z hz')
    · have hx : insertLex x (y :: ys) = y :: insertLex x ys := by
        simp [insertLex, h]
      rw [hx, List.pairwise_cons]
      refine ⟨?_, ih hys⟩
      intro z hz
      rcases List.mem_cons.mp ((insertLex_perm x ys).mem_iff.mp hz) with rfl | hz'
      · rcases lexLe_total y z with hh | hh
        · exact hh
        · exact absurd hh h
      · exact hy z hz'

/-- The sort `sortLex` sorts. -/
theorem pairwise_sortLex : ∀ (l : List (List Char)),
    (sortLex l).Pairwise (fun a b => lexLe a b = true) := by
  intro l
  induction l with
  | nil => simp [sortLex]
  | cons x xs ih => exact pairwise_insertLex ih

/-- Membership is preserved by `dedupStr`. -/
theorem mem_dedupStr {a : List Char} :
    ∀ {l : List (List Char)}, a ∈ dedupStr l ↔ a ∈ l := by
  intro l
  induction l with
  | nil => simp [dedupStr]
  | cons x xs ih =>
    by_cases h : x ∈ xs
    · simp only [dedupStr, h, if_true, ih, List.mem_cons]
      constructor
      · exact Or.inr
      · rintro (rfl | hx)
        · exact h
        · exact hx
    · simp only [dedupStr, h, if_false, List.mem_cons, ih]

/-- The pass `dedupStr` removes all duplicates. -/
theorem nodup_dedupStr : ∀ (l : List (List Char)), (dedupStr l).Nodup := by
  intro l
  induction l with
  | nil => simp [dedupStr]
  | cons x xs ih =>
    by_cases h : x ∈ xs
    · simpa [dedupStr, h] using ih
    · simp only [dedupStr, h, if_false]
      exact List.nodup_cons.mpr ⟨fun hx => h (mem_dedupStr.mp hx), ih⟩

/-- Nodup transfers through `sortLex`. -/
theorem nodup_sortLex {l : List (List Char)} (h : l.Nodup) : (sortLex l).Nodup :=
  (sortLex_perm l).nodup_iff.mpr h

/-! ### pyReplace lemmas -/

/-- The fuelled replace scanner is the identity when the pattern never
occurs. -/
theorem pyReplaceAux_not_infix : ∀ (fuel : Nat) (s : List Char), s.length ≤ fuel →
    ∀ {pat rep : List Char}, ¬ pat <:+: s → pyReplaceAux pat rep fuel s = s := by
  intro fuel
  induction fuel with
  | zero =>
    intro s hs pat rep _
    cases s with
    | nil => rfl
    | cons c rest => simp at hs
  | succ fuel ih =>
    intro s hs pat rep hni
    cases s with
    | nil => rfl
    | cons c rest =>
      have hp : pat.isPrefixOf (c :: rest) = false := by
        cases hpb : pat.isPrefixOf (c :: rest) with
        | false => rfl
        | true => exact absurd (infixOfPre ((startsWith_iff _ _).mp hpb)) hni
      have hlen : rest.length ≤ fuel := by
        simp only [List.length_cons] at hs; omega
      have hni' : ¬ pat <:+: rest := fun hx => hni (infixOfTail c hx)
      simp only [pyReplaceAux, hp, Bool.false_eq_true, if_false, List.cons.injEq,
        true_and]
      exact ih rest hlen hni'

/-- Python `str.replace` is the identity when the pattern never occurs in the
subject. -/
theorem pyReplace_not_infix {s pat rep : List Char} (hni : ¬ pat <:+: s) :
    pyReplace s pat rep = s := by
  cases pat with
  | nil => rfl
  | cons a as => exact pyReplaceAux_not_infix s.length s (le_refl _) hni

/-- Characters of the space-to-underscore replacement: either a non-space
character of the subject or an underscore. -/
theorem mem_pyReplaceAux_space : ∀ (fuel : Nat) (s : List Char), s.length ≤ fuel →
    ∀ {c : Char}, c ∈ pyReplaceAux [' '] ['_'] fuel s → (c ∈ s ∧ c ≠ ' ') ∨ c = '_' := by
  intro fuel
  induction fuel with
  | zero =>
    intro s hs c hc
    cases s with
    | nil => simp [pyReplaceAux] at hc
    | cons a rest => simp at hs
  | succ fuel ih =>
    intro s hs c hc
    cases s with
    | nil => simp [pyReplaceAux] at hc
    | cons a rest =>
      have hlen : rest.length ≤ fuel := by
        simp only [List.length_cons] at hs; omega
      by_cases ha : a = ' '
      · subst ha
        have hp : ([' '] : List Char).isPrefixOf (' ' :: rest) = true := by
          simp [List.isPrefixOf]
        simp only [pyReplaceAux, hp, if_true, List.length_cons] at hc
        have hc2 : c ∈ ['_'] ++ pyReplaceAux [' '] ['_'] fuel rest := hc
        rcases List.mem_append.mp hc2 with h1 | h2
        · exact Or.inr (by simpa using h1)
        · rcases ih rest hlen h2 with ⟨hm, hne⟩ | he
          · exact Or.inl ⟨List.mem_cons_of_mem _ hm, hne⟩
          · exact Or.inr he
      · have hp : ([' '] : List Char).isPrefixOf (a :: rest) = false := by
          simp [List.isPrefixOf]
          exact fun h => absurd h.symm ha
        simp only [pyReplaceAux, hp, Bool.false_eq_true, if_false] at hc
        rcases List.mem_cons.mp hc with rfl | h2
        · exact Or.inl ⟨List.mem_cons_self _ _, ha⟩
        · rcases ih rest hlen h2 with ⟨hm, hne⟩ | he
          · exact Or.inl ⟨List.mem_cons_of_mem _ hm, hne⟩
          · exact Or.inr he

/-- No space survives a space-to-underscore replacement. -/
theorem space_not_mem_pyReplace (s : List Char) : ' ' ∉ pyReplace s [' '] ['_'] := by
  intro h
  have h' : ' ' ∈ pyReplaceAux [' '] ['_'] s.length s := h
  rcases mem_pyReplaceAux_space s.length s (le_refl _) h' with ⟨_, hne⟩ | he
  · exact hne rfl
  · simp at he

/-- Characters of a space-to-underscore replacement come from the subject or
are underscores. -/
theorem mem_pyReplace_space {c : Char} {s : List Char}
    (h : c ∈ pyReplace s [' '] ['_']) : c ∈ s ∨ c = '_' := by
  have h' : c ∈ pyReplaceAux [' '] ['_'] s.length s := h
  rcases mem_pyReplaceAux_space s.length s (le_refl _) h' with ⟨hm, _⟩ | he
  · exact Or.inl hm
  · exact Or.inr he

/-! ### Substitution-pass identity lemmas -/

/-- A fold of replacements over never-occurring patterns is the identity. -/
theorem foldl_pyReplace_id {s : List Char} :
    ∀ (l : List (List Char × List Char)),
      (∀ pr ∈ l, ¬ pr.2 <:+: s) →
      l.foldl (fun acc pr => pyReplace acc pr.2 (pyReplace pr.1 [' '] ['_'])) s = s := by
  intro l
  induction l with
  | nil => intro _; rfl
  | cons pr l' ih =>
    intro h
    have hstep : pyReplace s pr.2 (pyReplace pr.1 [' '] ['_']) = s :=
      pyReplace_not_infix (h pr (List.mem_cons_self _ _))
    simp only [List.foldl_cons, hstep]
    exact ih (fun q hq => h q (List.mem_cons_of_mem _ hq))

/-- The input pass is the identity when the string contains no input token
and the supplied token list consists of input tokens. -/
theorem substitute_input_id {ui : Option (List (List Char))}
    {toks : List (List Char)} {s : List Char}
    (htoks : ∀ t ∈ toks, IsInputToken t) (hi : findInputTokens s = []) :
    substitute_input_tokens ui toks s = s := by
  cases ui with
  | none => rfl
  | some vals =>
    unfold substitute_input_tokens
    refine foldl_pyReplace_id _ ?_
    intro pr hpr
    obtain ⟨a, b⟩ := pr
    have hb : b ∈ toks := (List.of_mem_zip hpr).2
    exact findInputTokens_eq_nil hi (htoks b hb)

/-- The name pass is the identity when the string contains no `{name}`
token. -/
theorem substitute_name_id {nm s : List Char} (h : findNameTokens s = []) :
    substitute_name_tokens nm s = s := by
  unfold substitute_name_tokens
  rw [h]
  rfl

/-- The date pass is the identity when the string contains no `{d:...}`
token. -/
theorem substitute_date_id {fmt : List Char → List Char} {s : List Char}
    (h : findDateTokens s = []) : substitute_date_tokens fmt s = s := by
  unfold substitute_date_tokens
  rw [h]
  rfl

/-- Full substitution is the identity on token-free strings. -/
theorem substitute_tokens_id {env : Env} {opts : PageCreatorOptions}
    {toks : List (List Char)} {s : List Char}
    (htoks : ∀ t ∈ toks, IsInputToken t)
    (hi : findInputTokens s = []) (hn : findNameTokens s = [])
    (hd : findDateTokens s = []) :
    substitute_tokens env opts toks s = s := by
  unfold substitute_tokens
  rw [substitute_input_id htoks hi, substitute_name_id hn, substitute_date_id hd]

/-! ### expanduser and path-shape lemmas -/

/-- The function `expanduser` either leaves the string alone or replaces a leading `~`
component by the home directory. -/
theorem expanduser_eq (home s : List Char) :
    expanduser home s = s ∨
    ∃ rest, s = '~' :: rest ∧ expanduser home s = home ++ rest := by
  cases s with
  | nil => exact Or.inl rfl
  | cons c cs =>
    by_cases hc : c = '~'
    · subst hc
      cases cs with
      | nil =>
        refine Or.inr ⟨[], rfl, ?_⟩
        simp [expanduser]
      | cons d ds =>
        by_cases hd : d = '/'
        · subst hd
          refine Or.inr ⟨'/' :: ds, rfl, ?_⟩
          simp [expanduser]
        · exact Or.inl (by simp [expanduser, hd])
    · exact Or.inl (by simp [expanduser, hc])

/-- Characters of `expanduser` come from the home directory or the input. -/
theorem mem_expanduser {c : Char} {home s : List Char}
    (h : c ∈ expanduser home s) : c ∈ home ∨ c ∈ s := by
  rcases expanduser_eq home s with heq | ⟨rest, hrest, heq⟩
  · exact Or.inr (heq ▸ h)
  · rw [heq] at h
    rcases List.mem_append.mp h with h1 | h2
    · exact Or.inl h1
    · exact Or.inr (hrest ▸ List.mem_cons_of_mem _ h2)

/-- The function `expanduser` preserves the shape `_ ++ '/' :: f`. -/
theorem expanduser_concat (home u f : List Char) :
    ∃ w, expanduser home (u ++ '/' :: f) = w ++ '/' :: f := by
  rcases expanduser_eq home (u ++ '/' :: f) with heq | ⟨rest, hrest, heq⟩
  · exact ⟨u, heq⟩
  · cases u with
    | nil =>
      rw [List.nil_append] at hrest
      exact absurd (List.cons.injEq .. ▸ hrest).1 (by decide)
    | cons a u' =>
      rw [List.cons_append] at hrest
      have h2 : a = '~' ∧ u' ++ '/' :: f = rest := by
        constructor
        · exact (List.cons.inj hrest).1
        · exact (List.cons.inj hrest).2
      refine ⟨home ++ u', ?_⟩
      rw [heq, ← h2.2, List.append_assoc]

/-- The scanner `revTakeToSlash` stops exactly at an appended slash. -/
theorem revTakeToSlash_append :
    ∀ {l : List Char}, '/' ∉ l → ∀ (x : List Char),
      revTakeToSlash (l ++ '/' :: x) = l := by
  intro l
  induction l with
  | nil => intro _ x; simp [revTakeToSlash]
  | cons a as ih =>
    intro h x
    have ha : ¬ a = '/' := fun hx => h (hx ▸ List.mem_cons_self a as)
    rw [List.cons_append]
    show (if a = '/' then [] else a :: revTakeToSlash (as ++ '/' :: x)) = a :: as
    rw [if_neg ha, ih (fun hm => h (List.mem_cons_of_mem a hm)) x]

/-- The name of a path ending in a slash-free component is that component. -/
theorem nameOf_concat {u f : List Char} (hf : '/' ∉ f) :
    nameOf (u ++ '/' :: f) = f := by
  unfold nameOf
  have hrev : (u ++ '/' :: f).reverse = f.reverse ++ '/' :: u.reverse := by
    simp
  rw [hrev, revTakeToSlash_append (fun hm => hf (List.mem_reverse.mp hm)) u.reverse,
    List.reverse_reverse]

/-- Members of `revTakeToSlash` are members of the list. -/
theorem mem_revTakeToSlash {c : Char} :
    ∀ {l : List Char}, c ∈ revTakeToSlash l → c ∈ l := by
  intro l
  induction l with
  | nil => intro h; simp [revTakeToSlash] at h
  | cons a as ih =>
    intro h
    by_cases ha : a = '/'
    · simp [revTakeToSlash, ha] at h
    · simp only [revTakeToSlash, ha, if_false] at h
      rcases List.mem_cons.mp h with rfl | h2
      · exact List.mem_cons_self _ _
      · exact List.mem_cons_of_mem _ (ih h2)

/-- Members of `revDropToSlash` are members of the list. -/
theorem mem_revDropToSlash {c : Char} :
    ∀ {l : List Char}, c ∈ revDropToSlash l → c ∈ l := by
  intro l
  induction l with
  | nil => intro h; simp [revDropToSlash] at h
  | cons a as ih =>
    intro h
    by_cases ha : a = '/'
    · simpa [revDropToSlash, ha] using h
    · simp only [revDropToSlash, ha, if_false] at h
      exact List.mem_cons_of_mem _ (ih h)

/-- Members of the name are members of the path. -/
theorem mem_nameOf {c : Char} {p : List Char} (h : c ∈ nameOf p) : c ∈ p := by
  unfold nameOf at h
  exact List.mem_reverse.mp (mem_revTakeToSlash (List.mem_reverse.mp h))

/-- Members of the directory part are members of the path. -/
theorem mem_dirPart {c : Char} {p : List Char} (h : c ∈ dirPart p) : c ∈ p := by
  unfold dirPart at h
  exact List.mem_reverse.mp (mem_revDropToSlash (List.mem_reverse.mp h))

/-- Members of the stem are members of the name. -/
theorem mem_stemOf {c : Char} {nm : List Char} (h : c ∈ stemOf nm) : c ∈ nm := by
  unfold stemOf at h
  split at h
  · exact h
  · split at h
    · exact List.take_subset _ _ h
    · exact h

/-- Success characterisation of `with_suffix` with a dotted suffix. -/
theorem with_suffix_ok_dot {p r q : List Char}
    (h : with_suffix p ('.' :: r) = Res.ok q) :
    q = dirPart p ++ stemOf (nameOf p) ++ ('.' :: r) := by
  have h' : (if '/' ∈ ('.' :: r) then Res.error (Err.valueError ('.' :: r))
      else
        if ('.' : Char) = '.' then
          if r = [] then Res.error (Err.valueError ('.' :: r))
          else if nameOf p = [] then Res.error (Err.valueError p)
          else Res.ok (dirPart p ++ stemOf (nameOf p) ++ ('.' :: r))
        else Res.error (Err.valueError ('.' :: r))) = Res.ok q := h
  split at h'
  · exact Res.noConfusion h'
  · split at h'
    · split at h'
      · exact Res.noConfusion h'
      · split at h'
        · exact Res.noConfusion h'
        · exact (Res.ok.inj h').symm
    · next hne => exact absurd rfl hne

/-- The function `with_suffix` succeeds on a well-formed dotted suffix and a non-empty
name. -/
theorem with_suffix_dot_ok {p r : List Char} (hr : r ≠ []) (hslash : '/' ∉ r)
    (hname : nameOf p ≠ []) :
    with_suffix p ('.' :: r) =
      Res.ok (dirPart p ++ stemOf (nameOf p) ++ ('.' :: r)) := by
  have hs : '/' ∉ ('.' :: r) := by
    intro hm
    rcases List.mem_cons.mp hm with he | hm'
    · exact absurd he (by decide)
    · exact hslash hm'
  show (if '/' ∈ ('.' :: r) then Res.error (Err.valueError ('.' :: r))
      else
        if ('.' : Char) = '.' then
          if r = [] then Res.error (Err.valueError ('.' :: r))
          else if nameOf p = [] then Res.error (Err.valueError p)
          else Res.ok (dirPart p ++ stemOf (nameOf p) ++ ('.' :: r))
        else Res.error (Err.valueError ('.' :: r))) =
      Res.ok (dirPart p ++ stemOf (nameOf p) ++ ('.' :: r))
  rw [if_neg hs, if_pos rfl, if_neg hr, if_neg hname]

/-! ### Claim theorems -/

/-- C1: for every pair of strings (raw destination path, rendered template
content), collecting input tokens returns the duplicate-free list of all
substrings matching `{input` + digits + `}` found in either string, sorted
lexicographically as plain strings (so `{input10}` precedes `{input2}`, the
string sort, not numeric). -/
theorem c1_collect_input_tokens_spec :
    ∀ (path tmpl : List Char),
      (collect_input_tokens path tmpl).Pairwise (fun a b => lexLe a b = true) ∧
      (collect_input_tokens path tmpl).Nodup ∧
      (∀ t, t ∈ collect_input_tokens path tmpl ↔
        (IsInputToken t ∧ (t <:+: path ∨ t <:+: tmpl))) ∧
      collect_input_tokens
        ['{', 'i', 'n', 'p', 'u', 't', '2', '}',
         '{', 'i', 'n', 'p', 'u', 't', '1', '0', '}'] [] =
        [['{', 'i', 'n', 'p', 'u', 't', '1', '0', '}'],
         ['{', 'i', 'n', 'p', 'u', 't', '2', '}']] := by
  intro path tmpl
  refine ⟨pairwise_sortLex _, nodup_sortLex (nodup_dedupStr _), ?_, by decide⟩
  intro t
  unfold collect_input_tokens sortedDedup
  rw [mem_sortLex, mem_dedupStr, List.mem_append, mem_findInputTokens,
    mem_findInputTokens]
  tauto

/-- The `given` component of the token-count-mismatch payload: the number of
supplied inputs, zero when `user_input` is absent. -/
def givenCount : Option (List (List Char)) → Nat
  | none => 0
  | some l => l.length

/-- C2: token-count validation fails with a mismatch error carrying
(expected = number of collected tokens, given = number of supplied inputs,
zero when absent) exactly when tokens exist with no input, or input is
present with a different length; zero tokens with absent input succeed. -/
theorem c2_verify_input_tokens_spec :
    ∀ (toks : List (List Char)) (ui : Option (List (List Char))),
      (verify_input_tokens toks ui =
          Res.error (Err.mismatchedToken toks.length (givenCount ui)) ↔
        ((toks ≠ [] ∧ ui = none) ∨
          (∃ l, ui = some l ∧ l.length ≠ toks.length))) ∧
      (verify_input_tokens toks ui = Res.ok () ↔
        ¬ ((toks ≠ [] ∧ ui = none) ∨
          (∃ l, ui = some l ∧ l.length ≠ toks.length))) := by
  intro toks ui
  cases ui with
  | none =>
    cases toks with
    | nil => simp [verify_input_tokens, givenCount]
    | cons t ts => simp [verify_input_tokens, givenCount]
  | some l =>
    by_cases h : toks.length = l.length
    · have hne : ¬ toks.length ≠ l.length := fun hx => hx h
      constructor
      · simp only [verify_input_tokens, hne, if_false, givenCount]
        constructor
        · intro hx; exact Res.noConfusion hx
        · rintro ((⟨_, hno⟩) | ⟨l', hl', hlen⟩)
          · exact Option.noConfusion hno
          · rw [← Option.some.inj hl'] at hlen
            exact absurd h.symm hlen
      · simp only [verify_input_tokens, hne, if_false, givenCount]
        constructor
        · rintro _ ((⟨_, hno⟩) | ⟨l', hl', hlen⟩)
          · exact Option.noConfusion hno
          · rw [← Option.some.inj hl'] at hlen
            exact absurd h.symm hlen
        · intro _; trivial
    · constructor
      · simp only [verify_input_tokens, h, if_true, ne_eq, givenCount]
        constructor
        · intro _
          exact Or.inr ⟨l, rfl, fun hx => h hx.symm⟩
        · intro _; trivial
      · simp only [verify_input_tokens, h, if_true, ne_eq, givenCount]
        constructor
        · intro hx; exact Res.noConfusion hx
        · intro hx
          exact absurd (Or.inr ⟨l, rfl, fun hy => h hy.symm⟩) hx

/-- The loader `load_template` returns the empty string when no template is configured. -/
theorem load_template_none {env : Env} {opts : PageCreatorOptions}
    (h : opts.template_filename = none) : load_template env opts = Res.ok [] := by
  unfold load_template
  rw [h]

/-- C3: save fails with an already-exists error naming the path when the
path is occupied (leaving the file map unchanged), and otherwise creates the
parent directories, writes the content to a new file and returns a success
whose message is the path; saving the same page twice succeeds then fails. -/
theorem c3_save_to_disk_spec :
    ∀ (page : ScopedPage) (disk : Disk),
      (∀ c0, lookupFile disk.files page.path = some c0 →
        save_to_disk page disk =
          (Res.error (Err.scopedPageAlreadyExists (page.path ++ strAlreadyExists)),
           ⟨slashPrefixes page.path ++ disk.dirs, disk.files⟩)) ∧
      (lookupFile disk.files page.path = none →
        save_to_disk page disk =
          (Res.ok ⟨page.path⟩,
           ⟨slashPrefixes page.path ++ disk.dirs,
            (page.path, page.page_content) :: disk.files⟩)) ∧
      (lookupFile disk.files page.path = none →
        (save_to_disk page (save_to_disk page disk).2).1 =
          Res.error (Err.scopedPageAlreadyExists (page.path ++ strAlreadyExists))) := by
  intro page disk
  refine ⟨?_, ?_, ?_⟩
  · intro c0 hl
    unfold save_to_disk
    rw [hl]
  · intro hl
    unfold save_to_disk
    rw [hl]
  · intro hl
    have h1 : save_to_disk page disk =
        (Res.ok ⟨page.path⟩,
         ⟨slashPrefixes page.path ++ disk.dirs,
          (page.path, page.page_content) :: disk.files⟩) := by
      unfold save_to_disk
      rw [hl]
    rw [h1]
    unfold save_to_disk
    have h2 : lookupFile ((page.path, page.page_content) :: disk.files) page.path
        = some page.page_content := by
      unfold lookupFile
      rw [if_pos rfl]
    rw [h2]

/-- Witness for C3 at a concrete page and an empty disk. -/
theorem c3_save_to_disk_witness :
    save_to_disk ⟨['a', '/', 'b'], ['c']⟩ ⟨[], []⟩ =
      (Res.ok ⟨['a', '/', 'b']⟩, ⟨[['a']], [(['a', '/', 'b'], ['c'])]⟩) ∧
    (save_to_disk ⟨['a', '/', 'b'], ['c']⟩
        (save_to_disk ⟨['a', '/', 'b'], ['c']⟩ ⟨[], []⟩).2).1 =
      Res.error (Err.scopedPageAlreadyExists (['a', '/', 'b'] ++ strAlreadyExists)) := by
  constructor
  · have h := (c3_save_to_disk_spec ⟨['a', '/', 'b'], ['c']⟩ ⟨[], []⟩).2.1 rfl
    rw [h]
    decide
  · exact (c3_save_to_disk_spec ⟨['a', '/', 'b'], ['c']⟩ ⟨[], []⟩).2.2 rfl

/-- C4: when no template filename is configured, a successful `create_page`
returns the untouched empty content, while the destination path is still
substituted (input, name and date tokens written into `page_path` or
`filename` are replaced even with no template configured). -/
theorem c4_no_template_spec :
    ∀ (env : Env) (opts : PageCreatorOptions) (page : ScopedPage),
      opts.template_filename = none →
      create_page env opts = Res.ok page →
      page.page_content = [] ∧
      ∃ toks rawPath,
        get_input_tokens env opts = Res.ok toks ∧
        convert_base_path_to_path env opts = Res.ok rawPath ∧
        page.path = substitute_tokens env opts toks rawPath := by
  intro env opts page htf hcp
  unfold create_page at hcp
  split at hcp
  · exact Res.noConfusion hcp
  · split at hcp
    next e he => exact Res.noConfusion hcp
    next toks htoks =>
      split at hcp
      next e he => exact Res.noConfusion hcp
      next u hver =>
        split at hcp
        next e he => exact Res.noConfusion hcp
        next rawPath hconv =>
          split at hcp
          next e he => exact Res.noConfusion hcp
          next tmpl hload =>
            have hpage := Res.ok.inj hcp
            have htmpl : tmpl = [] := by
              rw [load_template_none htf] at hload
              exact (Res.ok.inj hload).symm
            rw [← hpage]
            constructor
            · simp only [htf, Option.isSome_none, Bool.false_eq_true, if_false]
              exact htmpl
            · exact ⟨toks, rawPath, htoks, hconv, rfl⟩

/-- Environment for the C4 witness. -/
def c4Env : Env := ⟨['h'], fun _ => true, fun _ _ => none, fun s => s⟩

/-- Options for the C4 witness: a `{name}` token directly in the filename
and no template configured. -/
def c4Opts : PageCreatorOptions :=
  ⟨['b'], ['p'], ['{', 'n', 'a', 'm', 'e', '}'], ['m', 'd'], ['N'],
   none, none, none, none⟩

/-- Witness for C4: with no template, content is empty and the `{name}`
token in the filename is substituted in the final path. -/
theorem c4_no_template_witness :
    create_page c4Env c4Opts =
      Res.ok ⟨['b', '/', 'p', '/', 'N', '.', 'm', 'd'], []⟩ ∧
    ((⟨['b', '/', 'p', '/', 'N', '.', 'm', 'd'], []⟩ : ScopedPage).page_content = [] ∧
      ∃ toks rawPath,
        get_input_tokens c4Env c4Opts = Res.ok toks ∧
        convert_base_path_to_path c4Env c4Opts = Res.ok rawPath ∧
        (⟨['b', '/', 'p', '/', 'N', '.', 'm', 'd'], []⟩ : ScopedPage).path =
          substitute_tokens c4Env c4Opts toks rawPath) :=
  ⟨by decide, c4_no_template_spec c4Env c4Opts _ rfl (by decide)⟩

/-- Environment for the C6 no-token example. -/
def c6Env : Env := ⟨['h'], fun _ => true, fun _ _ => none, fun s => s⟩

/-- Options for the C6 no-token example: user input is present. -/
def c6Opts : PageCreatorOptions :=
  ⟨['b'], ['p'], ['f'], ['m', 'd'], ['N'], some [['X']], none, none, none⟩

/-- The malformed token text `{inpu}` of the C6 edge case. -/
def c6MalformedStr : List Char := ['{', 'i', 'n', 'p', 'u', '}']

/-- A concrete input token `{input0}`. -/
def c6Tok0 : List Char := inputTokenHead ++ ['0'] ++ ['}']

/-- C6: substitution applies the input pass, then the name pass, then the
date pass; each pass is a no-op on a string with zero tokens of its kind;
text matching no token syntax (the malformed `{inpu}`) is left unchanged. -/
theorem c6_substitution_passes_spec :
    ∀ (env : Env) (opts : PageCreatorOptions) (toks : List (List Char))
      (s : List Char),
      (substitute_tokens env opts toks s =
        substitute_date_tokens env.strftime
          (substitute_name_tokens opts.name
            (substitute_input_tokens opts.user_input toks s))) ∧
      ((∀ t ∈ toks, IsInputToken t) → findInputTokens s = [] →
        substitute_input_tokens opts.user_input toks s = s) ∧
      (findNameTokens s = [] → substitute_name_tokens opts.name s = s) ∧
      (findDateTokens s = [] → substitute_date_tokens env.strftime s = s) ∧
      substitute_tokens c6Env c6Opts [c6Tok0] c6MalformedStr = c6MalformedStr := by
  intro env opts toks s
  exact ⟨rfl, fun h1 h2 => substitute_input_id h1 h2,
    fun h => substitute_name_id h, fun h => substitute_date_id h, by decide⟩

/-- Witness for C6: all three passes are no-ops on the token-free string
`ab`, with user input present and a real token list. -/
theorem c6_substitution_passes_witness :
    substitute_input_tokens c6Opts.user_input [c6Tok0] ['a', 'b'] = ['a', 'b'] ∧
    substitute_name_tokens c6Opts.name ['a', 'b'] = ['a', 'b'] ∧
    substitute_date_tokens c6Env.strftime ['a', 'b'] = ['a', 'b'] := by
  have h := c6_substitution_passes_spec c6Env c6Opts [c6Tok0] ['a', 'b']
  refine ⟨h.2.1 ?_ (by decide), h.2.2.1 (by decide), h.2.2.2.1 (by decide)⟩
  intro t ht
  have ht0 : t = c6Tok0 := by simpa using ht
  subst ht0
  exact ⟨['0'], by decide, rfl⟩

/-- Substitution is the identity when `user_input` is absent and the string
carries no name or date token (the input pass is a no-op by definition when
`user_input` is `None`). -/
theorem substitute_tokens_none_ui {env : Env} {opts : PageCreatorOptions}
    {toks : List (List Char)} {s : List Char} (hui : opts.user_input = none)
    (hn : findNameTokens s = []) (hd : findDateTokens s = []) :
    substitute_tokens env opts toks s = s := by
  unfold substitute_tokens
  rw [hui]
  show substitute_date_tokens env.strftime (substitute_name_tokens opts.name s) = s
  rw [substitute_name_id hn, substitute_date_id hd]

/-- C5: a missing base path fails with the base-path error before any other
check, and with the base path present a configured-but-absent template fails
with the template error (naming the resolved full path) rather than with a
token-count mismatch, because token collection loads the template first. -/
theorem c5_error_precedence_spec :
    ∀ (env : Env) (opts : PageCreatorOptions),
      (env.pathExists (expanduser env.home opts.base_path) = false →
        create_page env opts =
          Res.error (Err.basePathDoesNotExist (base_path_error_msg opts.base_path))) ∧
      (∀ fname,
        env.pathExists (expanduser env.home opts.base_path) = true →
        opts.template_filename = some fname →
        env.template (template_dir env opts) fname = none →
        opts.extension ≠ [] → '/' ∉ opts.extension →
        opts.filename ≠ [] → '/' ∉ opts.filename →
        create_page env opts =
          Res.error (Err.templateFileNotFound
            (template_error_msg (template_dir env opts) fname))) := by
  intro env opts
  constructor
  · intro h
    unfold create_page
    rw [if_pos h]
  · intro fname h1 htf htm hextne hextslash hfne hfslash
    have hnot : ¬ env.pathExists (expanduser env.home opts.base_path) = false := by
      rw [h1]
      exact fun hx => Bool.noConfusion hx
    have hjoin : opts.base_path ++ ['/'] ++ opts.page_path ++ ['/'] ++ opts.filename
        = (opts.base_path ++ ['/'] ++ opts.page_path) ++ '/' :: opts.filename := by
      simp [List.append_assoc]
    obtain ⟨w, hw⟩ := expanduser_concat env.home
      (opts.base_path ++ ['/'] ++ opts.page_path) opts.filename
    have hname : nameOf (expanduser env.home
        (opts.base_path ++ ['/'] ++ opts.page_path ++ ['/'] ++ opts.filename)) ≠ [] := by
      rw [hjoin, hw, nameOf_concat hfslash]
      exact hfne
    have hws := with_suffix_dot_ok (p := expanduser env.home
        (opts.base_path ++ ['/'] ++ opts.page_path ++ ['/'] ++ opts.filename))
      hextne hextslash hname
    have hload : load_template env opts =
        Res.error (Err.templateFileNotFound
          (template_error_msg (template_dir env opts) fname)) := by
      unfold load_template
      rw [htf]
      show (match env.template (template_dir env opts) fname with
        | some contents => Res.ok contents
        | none => Res.error (Err.templateFileNotFound
            (template_error_msg (template_dir env opts) fname))) =
        Res.error (Err.templateFileNotFound
          (template_error_msg (template_dir env opts) fname))
      rw [htm]
    have hgit : get_input_tokens env opts =
        Res.error (Err.templateFileNotFound
          (template_error_msg (template_dir env opts) fname)) := by
      unfold get_input_tokens
      simp only [hws, hload]
    unfold create_page
    rw [if_neg hnot]
    simp only [hgit]

/-- Environment for the C5 witness, base-path-missing part. -/
def c5EnvA : Env := ⟨['h'], fun _ => false, fun _ _ => none, fun s => s⟩

/-- Environment for the C5 witness, template-missing part. -/
def c5EnvB : Env := ⟨['h'], fun _ => true, fun _ _ => none, fun s => s⟩

/-- Options for the C5 witness, base-path-missing part. -/
def c5OptsA : PageCreatorOptions :=
  ⟨['b'], ['p'], ['f'], ['m', 'd'], ['N'], none, none, none, none⟩

/-- Options for the C5 witness, template-missing part: the token count also
disagrees (zero tokens, one input), yet the template error wins. -/
def c5OptsB : PageCreatorOptions :=
  ⟨['b'], ['p'], ['f'], ['m', 'd'], ['N'], some [['x']], none, none, some ['t']⟩

/-- Witness for C5 at concrete environments and options. -/
theorem c5_error_precedence_witness :
    create_page c5EnvA c5OptsA =
      Res.error (Err.basePathDoesNotExist (base_path_error_msg c5OptsA.base_path)) ∧
    create_page c5EnvB c5OptsB =
      Res.error (Err.templateFileNotFound
        (template_error_msg (template_dir c5EnvB c5OptsB) ['t'])) :=
  ⟨(c5_error_precedence_spec c5EnvA c5OptsA).1 rfl,
   (c5_error_precedence_spec c5EnvB c5OptsB).2 ['t'] rfl rfl rfl (by decide)
     (by decide) (by decide) (by decide)⟩

/-- Environment for the C7 end-to-end example: one template `t` under
`b/.templates` rendering to `a b` (content with a literal space). -/
def c7Env : Env :=
  ⟨['h'], fun _ => true,
   fun d f =>
     if d = ['b', '/', '.', 't', 'e', 'm', 'p', 'l', 'a', 't', 'e', 's'] ∧ f = ['t']
     then some ['a', ' ', 'b'] else none,
   fun s => s⟩

/-- Options for the C7 example: `{name}` page path, filename and name with
literal spaces, template configured. -/
def c7Opts : PageCreatorOptions :=
  ⟨['b'], ['{', 'n', 'a', 'm', 'e', '}'], ['a', ' ', 'b'], ['m', 'd'],
   ['x', ' ', 'y'], none, none, none, some ['t']⟩

/-- C7: spaces in `page_path` and `filename` are replaced by underscores
during path construction (for a space-free base path, home and extension the
constructed path has no space), before token substitution (a name value with
spaces still enters the path unreplaced), while literal spaces in rendered
template content survive untouched. -/
theorem c7_space_replacement_spec :
    (∀ (env : Env) (opts : PageCreatorOptions) (p : List Char),
      ' ' ∉ env.home → ' ' ∉ opts.base_path → ' ' ∉ opts.extension →
      convert_base_path_to_path env opts = Res.ok p → ' ' ∉ p) ∧
    create_page c7Env c7Opts =
      Res.ok ⟨['b', '/', 'x', ' ', 'y', '/', 'a', '_', 'b', '.', 'm', 'd'],
              ['a', ' ', 'b']⟩ := by
  constructor
  · intro env opts p hh hb he hcv
    unfold convert_base_path_to_path at hcv
    split at hcv
    · exact Res.noConfusion hcv
    · next c rest hext =>
      have hq := with_suffix_ok_dot hcv
      rw [hq]
      have hpe : ' ' ∉ (expanduser env.home opts.base_path ++ ['/'] ++
          expanduser env.home (pyReplace opts.page_path [' '] ['_']) ++ ['/'] ++
          pyReplace opts.filename [' '] ['_']) := by
        intro hm
        rcases List.mem_append.mp hm with hm1 | hmE3
        · rcases List.mem_append.mp hm1 with hm2 | hslD
          · rcases List.mem_append.mp hm2 with hm4 | hmE2
            · rcases List.mem_append.mp hm4 with hmE1 | hslB
              · rcases mem_expanduser hmE1 with hx | hx
                · exact hh hx
                · exact hb hx
              · exact absurd hslB (by decide)
            · rcases mem_expanduser hmE2 with hx | hx
              · exact hh hx
              · exact space_not_mem_pyReplace _ hx
          · exact absurd hslD (by decide)
        · exact space_not_mem_pyReplace _ hmE3
      intro hsp
      rcases List.mem_append.mp hsp with hm1 | hm2
      · rcases List.mem_append.mp hm1 with hmd | hms
        · exact hpe (mem_dirPart hmd)
        · exact hpe (mem_nameOf (mem_stemOf hms))
      · rcases List.mem_cons.mp hm2 with hdot | hm3
        · exact absurd hdot (by decide)
        · have hmem : ' ' ∈ opts.extension := by
            rw [hext]
            by_cases hc : c = '.'
            · rw [if_pos hc] at hm3
              exact List.mem_cons_of_mem _ hm3
            · rw [if_neg hc] at hm3
              exact hm3
          exact he hmem
  · decide

/-- Environment for the C7 witness. -/
def c7wEnv : Env := ⟨['h'], fun _ => true, fun _ _ => none, fun s => s⟩

/-- Options for the C7 witness: spaces in `page_path` and `filename`. -/
def c7wOpts : PageCreatorOptions :=
  ⟨['b'], ['p', ' ', 'a'], ['c', ' ', 'd'], ['m', 'd'], ['N'],
   none, none, none, none⟩

/-- Witness for C7: the constructed path of a concrete space-laden scope
contains no space. -/
theorem c7_space_replacement_witness :
    ' ' ∉ ['b', '/', 'p', '_', 'a', '/', 'c', '_', 'd', '.', 'm', 'd'] :=
  c7_space_replacement_spec.1 c7wEnv c7wOpts
    ['b', '/', 'p', '_', 'a', '/', 'c', '_', 'd', '.', 'm', 'd']
    (by decide) (by decide) (by decide) (by decide)

/-- Environment for the C8 counterexample. -/
def c8Env : Env := ⟨['h'], fun _ => true, fun _ _ => none, fun s => s⟩

/-- Options for the C8 counterexample: `page_path`, `filename` and the (not
configured) template are token-free, but `base_path` carries a `{name}`
token into the constructed path. -/
def c8Opts : PageCreatorOptions :=
  ⟨['{', 'n', 'a', 'm', 'e', '}'], ['p'], ['f'], ['m', 'd'], ['N'],
   none, none, none, none⟩

/-- Counterexample to C8 as stated: a scope whose `page_path`, `filename`
and template content contain zero tokens and whose `user_input` is absent,
yet `create_page` succeeds with a path different from the raw constructed
destination path, because `base_path` also flows into the path and carries a
`{name}` token. -/
theorem c8_raw_path_counterexample :
    findInputTokens c8Opts.page_path = [] ∧ findNameTokens c8Opts.page_path = [] ∧
    findDateTokens c8Opts.page_path = [] ∧
    findInputTokens c8Opts.filename = [] ∧ findNameTokens c8Opts.filename = [] ∧
    findDateTokens c8Opts.filename = [] ∧
    c8Opts.template_filename = none ∧ c8Opts.user_input = none ∧
    create_page c8Env c8Opts =
      Res.ok ⟨['N', '/', 'p', '/', 'f', '.', 'm', 'd'], []⟩ ∧
    convert_base_path_to_path c8Env c8Opts =
      Res.ok ['{', 'n', 'a', 'm', 'e', '}', '/', 'p', '/', 'f', '.', 'm', 'd'] ∧
    (['N', '/', 'p', '/', 'f', '.', 'm', 'd'] : List Char) ≠
      ['{', 'n', 'a', 'm', 'e', '}', '/', 'p', '/', 'f', '.', 'm', 'd'] := by
  decide

/-- C8 (amended): for every scope whose whole constructed destination path
and rendered template content contain zero placeholder tokens of any kind
and whose `user_input` is absent, given an existing base path, `create_page`
succeeds and returns exactly the raw constructed path and the raw rendered
content — substitution is the identity on token-free strings. -/
theorem c8_token_free_identity :
    ∀ (env : Env) (opts : PageCreatorOptions) (rawPath tmpl : List Char),
      env.pathExists (expanduser env.home opts.base_path) = true →
      opts.user_input = none →
      get_input_tokens env opts = Res.ok [] →
      convert_base_path_to_path env opts = Res.ok rawPath →
      load_template env opts = Res.ok tmpl →
      findNameTokens rawPath = [] → findDateTokens rawPath = [] →
      findNameTokens tmpl = [] → findDateTokens tmpl = [] →
      create_page env opts = Res.ok ⟨rawPath, tmpl⟩ := by
  intro env opts rawPath tmpl h1 hui hgit hconv hload hn1 hd1 hn2 hd2
  have hnot : ¬ env.pathExists (expanduser env.home opts.base_path) = false := by
    rw [h1]
    exact fun hx => Bool.noConfusion hx
  have hver : verify_input_tokens [] none = Res.ok () := rfl
  have hpath : substitute_tokens env opts [] rawPath = rawPath :=
    substitute_tokens_none_ui hui hn1 hd1
  have hcontent :
      (if opts.template_filename.isSome then substitute_tokens env opts [] tmpl
       else tmpl) = tmpl := by
    split
    · exact substitute_tokens_none_ui hui hn2 hd2
    · rfl
  unfold create_page
  rw [if_neg hnot]
  simp only [hgit, hui, hver, hconv, hload, hpath, hcontent]

/-- Environment for the C8 amended-claim witness: a template rendering to
the token-free string `T`. -/
def c8wEnv : Env := ⟨['h'], fun _ => true, fun _ _ => some ['T'], fun s => s⟩

/-- Options for the C8 amended-claim witness. -/
def c8wOpts : PageCreatorOptions :=
  ⟨['b'], ['p'], ['f'], ['m', 'd'], ['N'], none, none, none, some ['t']⟩

/-- Witness for the amended C8 at a fully token-free concrete scope. -/
theorem c8_token_free_identity_witness :
    create_page c8wEnv c8wOpts =
      Res.ok ⟨['b', '/', 'p', '/', 'f', '.', 'm', 'd'], ['T']⟩ :=
  c8_token_free_identity c8wEnv c8wOpts
    ['b', '/', 'p', '/', 'f', '.', 'm', 'd'] ['T'] rfl rfl (by decide) (by decide)
    (by decide) (by decide) (by decide) (by decide) (by decide)

/-- Environment for the C9 counterexample. -/
def c9Env : Env := ⟨['h'], fun _ => true, fun _ _ => none, fun s => s⟩

/-- Options for the C9 counterexample: an empty extension. -/
def c9Opts : PageCreatorOptions :=
  ⟨['b'], ['p'], ['f'], [], ['N'], none, none, none, none⟩

/-- Counterexample to C9 as stated: with an empty extension `create_page`
raises Python `ValueError` (invalid `with_suffix` argument `"."`) during
token collection, not the `IndexError` of extension normalisation. -/
theorem c9_empty_extension_counterexample :
    c9Opts.extension = [] ∧
    create_page c9Env c9Opts = Res.error (Err.valueError ['.']) ∧
    create_page c9Env c9Opts ≠ Res.error Err.indexError := by
  decide

/-- C9 (amended): with an empty extension and an existing base path,
`create_page` fails with an uncaught `ValueError` over the invalid suffix
`"."` raised while building the token-collection path, before extension
normalisation runs; the `IndexError` from inspecting the extension's first
character is reached only when `_convert_base_path_to_path` is called
directly. -/
theorem c9_empty_extension_value_error :
    ∀ (env : Env) (opts : PageCreatorOptions),
      opts.extension = [] →
      env.pathExists (expanduser env.home opts.base_path) = true →
      create_page env opts = Res.error (Err.valueError ['.']) ∧
      convert_base_path_to_path env opts = Res.error Err.indexError := by
  intro env opts hext h1
  have hnot : ¬ env.pathExists (expanduser env.home opts.base_path) = false := by
    rw [h1]
    exact fun hx => Bool.noConfusion hx
  constructor
  · have hws : with_suffix (expanduser env.home
        (opts.base_path ++ ['/'] ++ opts.page_path ++ ['/'] ++ opts.filename))
        ['.'] = Res.error (Err.valueError ['.']) := rfl
    have hgit : get_input_tokens env opts = Res.error (Err.valueError ['.']) := by
      unfold get_input_tokens
      rw [hext]
      simp only [hws]
    unfold create_page
    rw [if_neg hnot]
    simp only [hgit]
  · unfold convert_base_path_to_path
    rw [hext]

/-- Witness for the amended C9 at a concrete environment and options. -/
theorem c9_empty_extension_value_error_witness :
    create_page c9Env c9Opts = Res.error (Err.valueError ['.']) ∧
    convert_base_path_to_path c9Env c9Opts = Res.error Err.indexError :=
  c9_empty_extension_value_error c9Env c9Opts rfl rfl

/-- Environment for the C10 examples. -/
def c10Env : Env := ⟨['h'], fun _ => true, fun _ _ => none, fun s => s⟩

/-- Options for the C10 suffix-replacement example (`v1.2` + `md`). -/
def c10OptsV : PageCreatorOptions :=
  ⟨['b'], ['p'], ['v', '1', '.', '2'], ['m', 'd'], ['N'], none, none, none, none⟩

/-- Options for the C10 destroyed-input-token example (`notes.{input0}`). -/
def c10OptsI : PageCreatorOptions :=
  ⟨['b'], ['p'], ['n', 'o', 't', 'e', 's', '.', '{', 'i', 'n', 'p', 'u', 't', '0', '}'],
   ['m', 'd'], ['N'], none, none, none, none⟩

/-- Options for the C10 destroyed-date-token example (`{d:%d.%m}`). -/
def c10OptsD : PageCreatorOptions :=
  ⟨['b'], ['p'], ['{', 'd', ':', '%', 'd', '.', '%', 'm', '}'],
   ['m', 'd'], ['N'], none, none, none, none⟩

/-- Options for the C10 dot-first-filename case (`.hidden`). -/
def c10OptsH : PageCreatorOptions :=
  ⟨['b'], ['p'], ['.', 'h', 'i', 'd', 'd', 'e', 'n'], ['m', 'd'], ['N'],
   none, none, none, none⟩

/-- Options for the C10 surviving-date-token case (`{d:%d.%m}v1.2`). -/
def c10OptsDV : PageCreatorOptions :=
  ⟨['b'], ['p'],
   ['{', 'd', ':', '%', 'd', '.', '%', 'm', '}', 'v', '1', '.', '2'],
   ['m', 'd'], ['N'], none, none, none, none⟩

/-- Environment for the C10 substitution-of-surviving-token case: the clock
formats every date token to `X`. -/
def c10EnvX : Env := ⟨['h'], fun _ => true, fun _ _ => none, fun _ => ['X']⟩

/-- The scanner `revTakeToDot` stops exactly at an appended dot. -/
theorem revTakeToDot_append :
    ∀ {l : List Char}, '.' ∉ l → ∀ (x : List Char),
      revTakeToDot (l ++ '.' :: x) = l := by
  intro l
  induction l with
  | nil => intro _ x; simp [revTakeToDot]
  | cons a as ih =>
    intro h x
    have ha : ¬ a = '.' := fun hx => h (hx ▸ List.mem_cons_self a as)
    rw [List.cons_append]
    show (if a = '.' then [] else a :: revTakeToDot (as ++ '.' :: x)) = a :: as
    rw [if_neg ha, ih (fun hm => h (List.mem_cons_of_mem a hm)) x]

/-- The scanner `revTakeToDot` keeps a dot-free list whole. -/
theorem revTakeToDot_all : ∀ {l : List Char}, '.' ∉ l → revTakeToDot l = l := by
  intro l
  induction l with
  | nil => intro _; rfl
  | cons a as ih =>
    intro h
    have ha : ¬ a = '.' := fun hx => h (hx ▸ List.mem_cons_self a as)
    show (if a = '.' then [] else a :: revTakeToDot as) = a :: as
    rw [if_neg ha, ih (fun hm => h (List.mem_cons_of_mem a hm))]

/-- When the last dot of a name is neither its first nor its last character,
the stem is everything before that dot (CPython drops the suffix). -/
theorem stemOf_drop_after_dot {pre after : List Char} (hpre : pre ≠ [])
    (hafter : after ≠ []) (hdot : '.' ∉ after) :
    stemOf (pre ++ '.' :: after) = pre := by
  have hrev : (pre ++ '.' :: after).reverse = after.reverse ++ '.' :: pre.reverse := by
    simp
  have htake : revTakeToDot (pre ++ '.' :: after).reverse = after.reverse := by
    rw [hrev]
    exact revTakeToDot_append (fun hm => hdot (List.mem_reverse.mp hm)) _
  have hlen : (pre ++ '.' :: after).length = pre.length + after.length + 1 := by
    simp [List.length_append]
    omega
  have hpl : 0 < pre.length := List.length_pos.mpr hpre
  have hal : 0 < after.length := List.length_pos.mpr hafter
  unfold stemOf
  rw [htake, List.length_reverse, hlen]
  rw [if_neg (by omega), if_pos (by constructor <;> omega)]
  have harith : pre.length + after.length + 1 - 1 - after.length = pre.length := by
    omega
  rw [harith]
  exact List.take_left pre ('.' :: after)

/-- A dot-free name keeps everything (the extension is appended). -/
theorem stemOf_no_dot {nm : List Char} (h : '.' ∉ nm) : stemOf nm = nm := by
  unfold stemOf
  rw [revTakeToDot_all (fun hm => h (List.mem_reverse.mp hm)), List.length_reverse,
    if_pos rfl]

/-- A name whose only dot comes first (like `.hidden`) keeps everything. -/
theorem stemOf_dot_first {rest : List Char} (h : '.' ∉ rest) :
    stemOf ('.' :: rest) = '.' :: rest := by
  have hrev : ('.' :: rest).reverse = rest.reverse ++ '.' :: [] := by simp
  have htake : revTakeToDot ('.' :: rest).reverse = rest.reverse := by
    rw [hrev]
    exact revTakeToDot_append (fun hm => h (List.mem_reverse.mp hm)) []
  have hlen : ('.' :: rest).length = rest.length + 1 := by simp
  unfold stemOf
  rw [htake, List.length_reverse, hlen]
  rw [if_neg (by omega), if_neg (by omega)]

/-- A name ending in a dot keeps everything (no suffix in CPython's rule). -/
theorem stemOf_trailing_dot (pre : List Char) :
    stemOf (pre ++ ['.']) = pre ++ ['.'] := by
  have hrev : (pre ++ ['.']).reverse = '.' :: pre.reverse := by simp
  have htake : revTakeToDot (pre ++ ['.']).reverse = [] := by
    rw [hrev]
    show (if ('.' : Char) = '.' then [] else '.' :: revTakeToDot pre.reverse) = []
    rw [if_pos rfl]
  have hlen : (pre ++ ['.']).length = pre.length + 1 := by simp
  unfold stemOf
  rw [htake, List.length_nil, hlen]
  rw [if_neg (by omega), if_neg (by omega)]

/-- Counterexample to C10 as stated: a dot-first filename loses nothing
(`.hidden` + `md` gives `.hidden.md`, not the `.md` that "text after its
last dot is dropped" predicts), and a dotted placeholder token in the
filename is NOT destroyed when a later dotted tail follows it —
`{d:%d.%m}v1.2` keeps the date token intact in the path and the token is
then substituted. -/
theorem c10_last_dot_counterexample :
    ('.' ∈ c10OptsH.filename ∧
      convert_base_path_to_path c10Env c10OptsH =
        Res.ok ['b', '/', 'p', '/', '.', 'h', 'i', 'd', 'd', 'e', 'n', '.', 'm', 'd'] ∧
      convert_base_path_to_path c10Env c10OptsH ≠
        Res.ok ['b', '/', 'p', '/', '.', 'm', 'd']) ∧
    (findDateTokens c10OptsDV.filename =
        [['{', 'd', ':', '%', 'd', '.', '%', 'm', '}']] ∧
      '.' ∈ ['{', 'd', ':', '%', 'd', '.', '%', 'm', '}'] ∧
      convert_base_path_to_path c10Env c10OptsDV =
        Res.ok ['b', '/', 'p', '/', '{', 'd', ':', '%', 'd', '.', '%', 'm', '}',
                'v', '1', '.', 'm', 'd'] ∧
      findDateTokens ['b', '/', 'p', '/', '{', 'd', ':', '%', 'd', '.', '%', 'm', '}',
          'v', '1', '.', 'm', 'd'] =
        [['{', 'd', ':', '%', 'd', '.', '%', 'm', '}']] ∧
      create_page c10EnvX c10OptsDV =
        Res.ok ⟨['b', '/', 'p', '/', 'X', 'v', '1', '.', 'm', 'd'], []⟩) := by
  decide

/-- C10 (amended): the normalised extension is applied to the final path
component by suffix replacement per pathlib's rule — text from the last dot
on is dropped exactly when that dot is neither the first nor the last
character of the name (`v1.2` + `md` gives `v1.md`, not `v1.2.md`), while a
dot-free, dot-first (`.hidden` gives `.hidden.md`) or dot-last name keeps
everything and the extension is appended; a placeholder token in the
filename is destroyed only when the last-dot cut falls inside it
(`notes.{input0}` loses its token before collection, `{d:%d.%m}` becomes
`{d:%d.md`), and a dotted token followed by a later dot survives intact and
is substituted as usual. -/
theorem c10_suffix_replacement_amended :
    (∀ pre after : List Char, pre ≠ [] → after ≠ [] → '.' ∉ after →
      stemOf (pre ++ '.' :: after) = pre) ∧
    (∀ nm : List Char, '.' ∉ nm → stemOf nm = nm) ∧
    (∀ rest : List Char, '.' ∉ rest → stemOf ('.' :: rest) = '.' :: rest) ∧
    (∀ pre : List Char, stemOf (pre ++ ['.']) = pre ++ ['.']) ∧
    (∀ (env : Env) (opts : PageCreatorOptions) (c : Char) (rest p : List Char),
      opts.extension = c :: rest →
      convert_base_path_to_path env opts = Res.ok p →
      p = dirPart (expanduser env.home opts.base_path ++ ['/'] ++
            expanduser env.home (pyReplace opts.page_path [' '] ['_']) ++ ['/'] ++
            pyReplace opts.filename [' '] ['_']) ++
          stemOf (nameOf (expanduser env.home opts.base_path ++ ['/'] ++
            expanduser env.home (pyReplace opts.page_path [' '] ['_']) ++ ['/'] ++
            pyReplace opts.filename [' '] ['_'])) ++
          '.' :: (if c = '.' then rest else c :: rest)) ∧
    (convert_base_path_to_path c10Env c10OptsV =
        Res.ok ['b', '/', 'p', '/', 'v', '1', '.', 'm', 'd'] ∧
      convert_base_path_to_path c10Env c10OptsV ≠
        Res.ok ['b', '/', 'p', '/', 'v', '1', '.', '2', '.', 'm', 'd']) ∧
    (get_input_tokens c10Env c10OptsI = Res.ok [] ∧
      create_page c10Env c10OptsI =
        Res.ok ⟨['b', '/', 'p', '/', 'n', 'o', 't', 'e', 's', '.', 'm', 'd'], []⟩) ∧
    (convert_base_path_to_path c10Env c10OptsD =
        Res.ok ['b', '/', 'p', '/', '{', 'd', ':', '%', 'd', '.', 'm', 'd'] ∧
      findDateTokens ['b', '/', 'p', '/', '{', 'd', ':', '%', 'd', '.', 'm', 'd'] = []) ∧
    (convert_base_path_to_path c10Env c10OptsH =
        Res.ok ['b', '/', 'p', '/', '.', 'h', 'i', 'd', 'd', 'e', 'n', '.', 'm', 'd'] ∧
      create_page c10EnvX c10OptsDV =
        Res.ok ⟨['b', '/', 'p', '/', 'X', 'v', '1', '.', 'm', 'd'], []⟩) := by
  refine ⟨fun pre after h1 h2 h3 => stemOf_drop_after_dot h1 h2 h3,
    fun nm h => stemOf_no_dot h,
    fun rest h => stemOf_dot_first h,
    stemOf_trailing_dot, ?_, by decide, by decide, by decide, by decide⟩
  intro env opts c rest p hext hcv
  unfold convert_base_path_to_path at hcv
  rw [hext] at hcv
  exact with_suffix_ok_dot hcv

/-- Witness for the amended C10: each branch of the last-dot rule at a
concrete name, and the path-construction conjunct at the `v1.2` scope. -/
theorem c10_suffix_replacement_amended_witness :
    stemOf ['v', '1', '.', '2'] = ['v', '1'] ∧
    stemOf ['a', 'b'] = ['a', 'b'] ∧
    stemOf ['.', 'h', 'i', 'd', 'd', 'e', 'n'] = ['.', 'h', 'i', 'd', 'd', 'e', 'n'] ∧
    stemOf ['n', '.'] = ['n', '.'] ∧
    (['b', '/', 'p', '/', 'v', '1', '.', 'm', 'd'] : List Char) =
      dirPart (expanduser c10Env.home c10OptsV.base_path ++ ['/'] ++
        expanduser c10Env.home (pyReplace c10OptsV.page_path [' '] ['_']) ++ ['/'] ++
        pyReplace c10OptsV.filename [' '] ['_']) ++
      stemOf (nameOf (expanduser c10Env.home c10OptsV.base_path ++ ['/'] ++
        expanduser c10Env.home (pyReplace c10OptsV.page_path [' '] ['_']) ++ ['/'] ++
        pyReplace c10OptsV.filename [' '] ['_'])) ++
      '.' :: ['m', 'd'] :=
  ⟨c10_suffix_replacement_amended.1 ['v', '1'] ['2'] (by decide) (by decide) (by decide),
   c10_suffix_replacement_amended.2.1 ['a', 'b'] (by decide),
   c10_suffix_replacement_amended.2.2.1 ['h', 'i', 'd', 'd', 'e', 'n'] (by decide),
   c10_suffix_replacement_amended.2.2.2.1 ['n'],
   c10_suffix_replacement_amended.2.2.2.2.1 c10Env c10OptsV 'm' ['d']
     ['b', '/', 'p', '/', 'v', '1', '.', 'm', 'd'] rfl (by decide)⟩

end Tembo
